import Mathlib

/-!
Verification of the content-negotiation, serialization and cached/retrying
HTTP-client core of the swiss-ai-mcp-commons package.

Python strings are modelled as `List Char`; Python floats arising from
quality values are modelled as exact rationals (every quality value in the
code is produced by parsing a decimal literal, clamping to [0,1], or the
default 1.0, and is only ever compared, so the rational model is
order-faithful); byte strings are modelled as `List Nat`.

The definitions below are direct translations of
`src/swiss_ai_mcp_commons/http/content_negotiation.py`,
`src/swiss_ai_mcp_commons/serialization.py` and
`src/swiss_ai_mcp_commons/http/client.py`.
-/

/-- Python `s.split(sep)` for a one-character separator: splits at every
occurrence, keeping empty segments; the empty string yields `[""]`. -/
def splitOnCh (sep : Char) : List Char → List (List Char)
  | [] => [[]]
  | c :: rest =>
    let r := splitOnCh sep rest
    if c = sep then [] :: r
    else (c :: r.headD []) :: r.tail

/-- Python `s.split(sep, 1)` for a one-character separator, restricted to the
case where `sep` occurs in `s` (the only way the source calls it): the pair of
the part before the first occurrence and everything after it. -/
def splitFirstCh (sep : Char) (s : List Char) : List Char × List Char :=
  (s.takeWhile (· ≠ sep), (s.dropWhile (· ≠ sep)).tail)

/-- Python `s.strip()`: remove leading and trailing whitespace. -/
def trimCh (s : List Char) : List Char :=
  (((s.dropWhile Char.isWhitespace).reverse).dropWhile Char.isWhitespace).reverse

/-- Python `s.startswith(p)`, on the char-list model of strings. -/
def hasPrefixCh : List Char → List Char → Bool
  | [], _ => true
  | _ :: _, [] => false
  | c :: p, d :: s => c = d && hasPrefixCh p s

/-- Value of a list of decimal digit characters. -/
def digitsToNat (l : List Char) : Nat :=
  l.foldl (fun a c => a * 10 + (c.toNat - 48)) 0

/-- Python `float(value)` restricted to the plain decimal fragment
`[+-]? digits [. digits]?` actually exercised by quality values; returns
`none` where Python raises `ValueError`.  The result is the exact rational
denoted by the literal, which agrees with the float model on every
comparison the code performs. -/
def parseDecimalQ (s : List Char) : Option ℚ :=
  let (sign, rest) : Int × List Char :=
    match s with
    | '-' :: r => (-1, r)
    | '+' :: r => (1, r)
    | r => (1, r)
  let intPart := rest.takeWhile Char.isDigit
  let rest2 := rest.dropWhile Char.isDigit
  match rest2 with
  | [] =>
    if intPart = [] then none
    else some (mkRat (sign * digitsToNat intPart) 1)
  | '.' :: frac =>
    if frac.all Char.isDigit && !(intPart = [] && frac = []) then
      some (mkRat (sign * (digitsToNat intPart * 10 ^ frac.length + digitsToNat frac))
        (10 ^ frac.length))
    else none
  | _ => none

/-- Python `max(0.0, min(1.0, quality))`. -/
def qClamp (q : ℚ) : ℚ := max 0 (min 1 q)

/-- Parsed media type with quality value (`MediaType` dataclass). -/
structure MediaType where
  type : List Char
  subtype : List Char
  quality : ℚ
  params : Option (List (List Char × List Char))
deriving DecidableEq

/-- Python dict assignment `params[key] = value`: overwrite in place or
append a fresh key at the end (insertion order preserved). -/
def updateParam : List (List Char × List Char) → List Char → List Char →
    List (List Char × List Char)
  | [], k, v => [(k, v)]
  | e :: rest, k, v => if e.1 = k then (k, v) :: rest else e :: updateParam rest k v

/-- Loop body of `parse_media_type` over `parts[1:]`: accumulate the quality
and the parameter dict.  A successfully parsed `q` is clamped to [0,1]; a
`ValueError` resets the quality to 1.0. -/
def mtParamsLoop : List (List Char) → ℚ → List (List Char × List Char) →
    ℚ × List (List Char × List Char)
  | [], q, ps => (q, ps)
  | part :: rest, q, ps =>
    if part.contains '=' then
      let kv := splitFirstCh '=' part
      let key := trimCh kv.1
      let value := trimCh kv.2
      if key = ['q'] then
        match parseDecimalQ value with
        | some x => mtParamsLoop rest (qClamp x) ps
        | none => mtParamsLoop rest 1 ps
      else mtParamsLoop rest q (updateParam ps key value)
    else mtParamsLoop rest q ps

/-- `parse_media_type`: parse one `type/subtype[; param]*` segment. -/
def parse_media_type (media_type_str : List Char) : MediaType :=
  let parts := (splitOnCh ';' media_type_str).map trimCh
  let main_type := parts.headD []
  let ts : List Char × List Char :=
    if main_type.contains '/' then
      let tp := splitFirstCh '/' main_type
      (trimCh tp.1, trimCh tp.2)
    else (main_type, ['*'])
  let qp := mtParamsLoop parts.tail 1 []
  { type := ts.1, subtype := ts.2, quality := qp.1,
    params := if qp.2 = [] then none else some qp.2 }

/-- Content encoding with quality value (`EncodingPreference` dataclass). -/
structure EncodingPreference where
  encoding : List Char
  quality : ℚ
deriving DecidableEq

/-- Loop body of `parse_encoding_preference` over `parts[1:]`. -/
def epLoop : List (List Char) → ℚ → ℚ
  | [], q => q
  | part :: rest, q =>
    if part.contains '=' then
      let kv := splitFirstCh '=' part
      if trimCh kv.1 = ['q'] then
        match parseDecimalQ (trimCh kv.2) with
        | some x => epLoop rest (qClamp x)
        | none => epLoop rest 1
      else epLoop rest q
    else epLoop rest q

/-- `parse_encoding_preference`: parse one `token[; q=value]*` segment. -/
def parse_encoding_preference (encoding_str : List Char) : EncodingPreference :=
  let parts := (splitOnCh ';' encoding_str).map trimCh
  { encoding := parts.headD [], quality := epLoop parts.tail 1 }

/-- Sort key of `parse_accept_header`:
`(mt.quality, mt.type != "*", mt.subtype != "*")`. -/
def mtKey (m : MediaType) : ℚ × Bool × Bool :=
  (m.quality, decide (m.type ≠ ['*']), decide (m.subtype ≠ ['*']))

/-- Lexicographic order on the sort key, with `false < true` on the boolean
components — Python tuple comparison. -/
abbrev keyLE (x y : ℚ × Bool × Bool) : Prop :=
  x.1 < y.1 ∨ (x.1 = y.1 ∧
    ((x.2.1 = false ∧ y.2.1 = true) ∨ (x.2.1 = y.2.1 ∧
      (x.2.2 = true → y.2.2 = true))))

/-- Descending, ties-first comparison used for `sorted(..., reverse=True)`
over media types. -/
abbrev mtGE (a b : MediaType) : Prop := keyLE (mtKey b) (mtKey a)

/-- The unsorted entry list of `parse_accept_header`: the comma-separated
segments, stripped and parsed (empty header: no entries). -/
def rawAcceptEntries (accept_header : List Char) : List MediaType :=
  if accept_header = [] then []
  else (splitOnCh ',' accept_header).map fun mt => parse_media_type (trimCh mt)

/-- `parse_accept_header`: split on commas, parse each entry, and stably sort
by quality then specificity, highest first. -/
def parse_accept_header (accept_header : List Char) : List MediaType :=
  List.insertionSort mtGE (rawAcceptEntries accept_header)

/-- Descending, ties-first comparison used for `sorted(..., reverse=True)`
over encoding preferences: quality only. -/
abbrev epGE (a b : EncodingPreference) : Prop := b.quality ≤ a.quality

/-- The unsorted entry list of `parse_accept_encoding_header`: the
comma-separated segments, stripped and parsed (empty header: no entries). -/
def rawEncodingEntries (accept_encoding : List Char) : List EncodingPreference :=
  if accept_encoding = [] then []
  else (splitOnCh ',' accept_encoding).map fun e => parse_encoding_preference (trimCh e)

/-- `parse_accept_encoding_header`: split on commas, parse each entry, and
stably sort by quality, highest first. -/
def parse_accept_encoding_header (accept_encoding : List Char) : List EncodingPreference :=
  List.insertionSort epGE (rawEncodingEntries accept_encoding)

/-- Python `f"{self.type}/{self.subtype}"` (the `full_type` property). -/
def MediaType.full_type (m : MediaType) : List Char := m.type ++ '/' :: m.subtype

/-- `MediaType.matches`: `*/*` matches anything; `type/*` matches content
types starting with `type + "/"`; otherwise exact equality with
`type/subtype`. -/
def MediaType.matches (m : MediaType) (content_type : List Char) : Bool :=
  if m.type = ['*'] ∧ m.subtype = ['*'] then true
  else if m.subtype = ['*'] then hasPrefixCh (m.type ++ ['/']) content_type
  else content_type = m.full_type

/-- `EncodingPreference.matches`: wildcard or exact equality. -/
def EncodingPreference.matches (p : EncodingPreference) (encoding : List Char) : Bool :=
  p.encoding = ['*'] || p.encoding = encoding

/-- Inner loop of `select_content_type`: first of `available` that the
media-type preference matches. -/
def selectCTInner (m : MediaType) : List (List Char) → Option (List Char)
  | [] => none
  | a :: rest => if m.matches a then some a else selectCTInner m rest

/-- Outer loop of `select_content_type` over the quality-sorted preferences. -/
def selectCTLoop : List MediaType → List (List Char) → Option (List Char)
  | [], _ => none
  | m :: ms, avail =>
    match selectCTInner m avail with
    | some a => some a
    | none => selectCTLoop ms avail

/-- `select_content_type`: empty header falls back to the first available
type; otherwise walk the parsed, quality-sorted preferences against the
available types in caller order. -/
def select_content_type (accept_header : List Char) (available_types : List (List Char)) :
    Option (List Char) :=
  if accept_header = [] then available_types.head?
  else selectCTLoop (parse_accept_header accept_header) available_types

/-- Inner loop of `select_encoding`. -/
def selectEncInner (p : EncodingPreference) : List (List Char) → Option (List Char)
  | [] => none
  | a :: rest => if p.matches a then some a else selectEncInner p rest

/-- Outer loop of `select_encoding` over the quality-sorted preferences. -/
def selectEncLoop : List EncodingPreference → List (List Char) → Option (List Char)
  | [], _ => none
  | p :: ps, avail =>
    match selectEncInner p avail with
    | some a => some a
    | none => selectEncLoop ps avail

/-- `select_encoding`: empty header returns `"identity"` unconditionally;
otherwise walk the preferences, falling back to `"identity"` when available
and `None` otherwise. -/
def select_encoding (accept_encoding : List Char) (available_encodings : List (List Char)) :
    Option (List Char) :=
  if accept_encoding = [] then some "identity".toList
  else
    match selectEncLoop (parse_accept_encoding_header accept_encoding) available_encodings with
    | some e => some e
    | none =>
      if available_encodings.contains "identity".toList then some "identity".toList else none

/-- `build_content_type_header`: append `"; charset=<cs>"` when the charset
argument is truthy (present and non-empty). -/
def build_content_type_header (content_type : List Char) (charset : Option (List Char)) :
    List Char :=
  match charset with
  | some cs => if cs ≠ [] then content_type ++ "; charset=".toList ++ cs else content_type
  | none => content_type

/-- `should_compress`: size gate first, then empty-header gate, then scan the
parsed preferences for gzip/deflate/br with positive quality. -/
def should_compress (accept_encoding : List Char) (min_size_bytes : Nat) (content_size : Nat) :
    Bool :=
  if content_size < min_size_bytes then false
  else if accept_encoding = [] then false
  else
    (parse_accept_encoding_header accept_encoding).any fun enc =>
      decide ((enc.encoding = "gzip".toList ∨ enc.encoding = "deflate".toList ∨
        enc.encoding = "br".toList) ∧ 0 < enc.quality)

/-- Decimal representation of a natural number (Python `str(int)`), written
with explicit fuel so that it reduces in the kernel. -/
def natToStrAux : Nat → Nat → List Char
  | 0, _ => []
  | fuel + 1, n =>
    if n = 0 then [] else natToStrAux fuel (n / 10) ++ [Char.ofNat (48 + n % 10)]

/-- Decimal representation of a natural number (Python `str(int)`). -/
def natToStr (n : Nat) : List Char :=
  if n = 0 then ['0'] else natToStrAux (n + 1) n

/-- `JsonSerializableMixin.serialize_with_negotiation`, parameterised over the
two external collaborators it calls: `gzipC` models `gzip.compress` and
`encodeB` models `str.encode(charset)` for the charset in use (json.dumps of
`self.to_dict()` is likewise abstracted as the `json_str` input).  Returns
the payload (JSON text or compressed bytes) and the response headers in
insertion order. -/
def serialize_with_negotiation (gzipC : List Nat → List Nat) (encodeB : List Char → List Nat)
    (json_str : List Char) (accept_encoding : Option (List Char))
    (min_compress_size : Nat) (charset : List Char) :
    (List Char ⊕ List Nat) × List (List Char × List Char) :=
  let json_bytes := encodeB json_str
  let content_size := json_bytes.length
  let headers0 : List (List Char × List Char) :=
    [("Content-Type".toList, build_content_type_header "application/json".toList (some charset))]
  let uncompressed : (List Char ⊕ List Nat) × List (List Char × List Char) :=
    (Sum.inl json_str, headers0 ++ [("Content-Length".toList, natToStr content_size)])
  match accept_encoding with
  | none => uncompressed
  | some ae =>
    if ae ≠ [] ∧ should_compress ae min_compress_size content_size then
      match select_encoding ae ["gzip".toList, "identity".toList] with
      | some e =>
        if e = "gzip".toList then
          let compressed := gzipC json_bytes
          (Sum.inr compressed,
            headers0 ++ [("Content-Encoding".toList, "gzip".toList),
              ("Content-Length".toList, natToStr compressed.length)])
        else uncompressed
      | none => uncompressed
    else uncompressed

/-- Query parameters of a request: Python `Dict[str, Any]` modelled as an
association list in insertion order, values rendered as strings. -/
abbrev Params := List (List Char × List Char)

/-- Python comparison of strings (lexicographic by code point), as used by
`sorted` on the items of a params dict. -/
def strLE : List Char → List Char → Bool
  | [], _ => true
  | _ :: _, [] => false
  | a :: s, b :: t => if a = b then strLE s t else decide (a < b)

/-- Python comparison of `(key, value)` tuples: lexicographic, key first. -/
abbrev pairLE (p q : List Char × List Char) : Prop :=
  if p.1 = q.1 then strLE p.2 q.2 = true else strLE p.1 q.1 = true

/-- Python `str(sorted(params.items()))`: a deterministic rendering of the
key-sorted item list.  The exact punctuation of the Python tuple repr is
abstracted; only determinism and injectivity-in-shape are observable. -/
def reprParamsModel (ps : Params) : List Char :=
  ps.foldr (fun p acc => '(' :: p.1 ++ ',' :: p.2 ++ ')' :: acc) []

/-- Python `hashlib.md5(combined.encode()).hexdigest()`: modelled as a tagged
copy of the input, since the only facts about the digest the client relies on
are determinism and non-emptiness. -/
def md5hexModel (s : List Char) : List Char := 'h' :: s

/-- `CachedHttpClient._get_cache_key`: the url concatenated with the rendering
of the key-sorted params (when the params dict is truthy), hashed. -/
def cacheKey (url : List Char) (params : Option Params) : List Char :=
  let combined :=
    match params with
    | some ps => if ps ≠ [] then url ++ reprParamsModel (List.insertionSort pairLE ps) else url
    | none => url
  md5hexModel combined

/-- The in-memory response cache `Dict[str, tuple[Any, datetime]]`: key,
stored JSON value (`none` models JSON `null`), storage timestamp in seconds. -/
abbrev Cache (β : Type) := List (List Char × Option β × Nat)

/-- Dict lookup in the cache. -/
def lookupEntry (cache : Cache β) (k : List Char) : Option (Option β × Nat) :=
  (cache.find? fun e => decide (e.1 = k)).map (·.2)

/-- Dict assignment in the cache: overwrite in place or append. -/
def setEntry : Cache β → List Char → Option β × Nat → Cache β
  | [], k, vt => [(k, vt)]
  | e :: rest, k, vt => if e.1 = k then (k, vt) :: rest else e :: setEntry rest k vt

/-- `CachedHttpClient._is_cache_valid`: an entry is valid iff it exists and
its age is below the TTL. -/
def isCacheValid (ttl : Nat) (now : Nat) (cache : Cache β) (k : List Char) : Bool :=
  match lookupEntry cache k with
  | none => false
  | some (_, t) => decide ((now : Int) - t < (ttl : Int))

/-- `CachedHttpClient._get_cached`: the stored value of a valid entry, else
`None`.  A stored JSON `null` and a miss give the same result. -/
def getCached (ttl : Nat) (now : Nat) (cache : Cache β) (k : List Char) : Option β :=
  if isCacheValid ttl now cache k then
    match lookupEntry cache k with
    | some (v, _) => v
    | none => none
  else none

/-- Outcome of one network attempt: an HTTP response with status and JSON
body (`none` models JSON `null`), a connection error, or a timeout. -/
inductive NetOutcome (β : Type) where
  | response (status : Nat) (body : Option β)
  | connectError
  | timeoutError

/-- Errors a request can surface: `httpx.HTTPStatusError` (raised by
`raise_for_status`), `httpx.ConnectError`, `httpx.TimeoutException`, and the
generic `RuntimeError` raised when no error was captured. -/
inductive HttpErr where
  | statusError (status : Nat)
  | connectError
  | timeoutError
  | runtimeError
deriving DecidableEq

/-- The last-encountered-error value an attempt outcome leaves in
`last_error`; meaningful only for failing outcomes. -/
def netErr : NetOutcome β → HttpErr
  | .response s _ => .statusError s
  | .connectError => .connectError
  | .timeoutError => .timeoutError

/-- Whether an attempt outcome is a retryable failure: HTTP status ≥ 500,
connection error, or timeout. -/
def retryable : NetOutcome β → Bool
  | .response s _ => decide (500 ≤ s)
  | .connectError => true
  | .timeoutError => true

/-- Result of running the retry loop: the outcome surfaced to the caller, the
number of network attempts issued, the backoff sleeps in order, and the body
to be cached on success. -/
structure LoopResult (β : Type) where
  result : Except HttpErr (Option β)
  attempts : Nat
  sleeps : List Nat
  cached : Option (Option β)

/-- The `for attempt in range(max_retries)` loop of `CachedHttpClient.get`,
written as recursion on the remaining iterations (`attempt` is the 0-indexed
Python loop variable, `attempt + remaining = max_retries`).  A successful
(2xx, per `raise_for_status`) response returns its JSON body (cached by the
caller); a non-2xx status below 500 raises at once;
a 5xx, connection error or timeout records `last_error` and continues,
sleeping `2 ** attempt` seconds when further attempts remain; a loop that
exhausts re-raises `last_error`, or the generic failure if none was set. -/
def getRetryLoop (net : Nat → NetOutcome β) : Nat → Nat → Option HttpErr → LoopResult β
  | _, 0, lastErr => ⟨.error (lastErr.getD .runtimeError), 0, [], none⟩
  | attempt, remaining + 1, _ =>
    match net attempt with
    | .response status body =>
      if 200 ≤ status ∧ status < 300 then ⟨.ok body, 1, [], some body⟩
      else if 500 ≤ status then
        let rest := getRetryLoop net (attempt + 1) remaining (some (.statusError status))
        ⟨rest.result, rest.attempts + 1,
          (if 0 < remaining then [2 ^ attempt] else []) ++ rest.sleeps, rest.cached⟩
      else ⟨.error (.statusError status), 1, [], none⟩
    | .connectError =>
      let rest := getRetryLoop net (attempt + 1) remaining (some .connectError)
      ⟨rest.result, rest.attempts + 1,
        (if 0 < remaining then [2 ^ attempt] else []) ++ rest.sleeps, rest.cached⟩
    | .timeoutError =>
      let rest := getRetryLoop net (attempt + 1) remaining (some .timeoutError)
      ⟨rest.result, rest.attempts + 1,
        (if 0 < remaining then [2 ^ attempt] else []) ++ rest.sleeps, rest.cached⟩

/-- Result of one `get` call: outcome, attempts issued, sleeps performed, and
the cache as left behind. -/
structure GetResult (β : Type) where
  result : Except HttpErr (Option β)
  attempts : Nat
  sleeps : List Nat
  cache : Cache β

/-- `CachedHttpClient.get`, with the wall clock modelled as the call instant
`now` and the network as the map `net` from attempt index to outcome.  The
cache is consulted first when `use_cache` holds and the (always non-empty)
cache key is truthy; a successful loop body is stored under the key. -/
def clientGet (ttl maxRetries : Nat) (cache : Cache β) (now : Nat)
    (net : Nat → NetOutcome β) (url : List Char) (params : Option Params)
    (use_cache : Bool) : GetResult β :=
  let cache_key : Option (List Char) := if use_cache then some (cacheKey url params) else none
  match cache_key with
  | some k =>
    if k ≠ [] then
      match getCached ttl now cache k with
      | some v => ⟨.ok (some v), 0, [], cache⟩
      | none =>
        let r := getRetryLoop net 0 maxRetries none
        ⟨r.result, r.attempts, r.sleeps,
          match r.cached with
          | some body => setEntry cache k (body, now)
          | none => cache⟩
    else
      let r := getRetryLoop net 0 maxRetries none
      ⟨r.result, r.attempts, r.sleeps, cache⟩
  | none =>
    let r := getRetryLoop net 0 maxRetries none
    ⟨r.result, r.attempts, r.sleeps, cache⟩

/-- Result of one `post` call (no cache involvement). -/
structure PostResult (β : Type) where
  result : Except HttpErr (Option β)
  attempts : Nat
  sleeps : List Nat

/-- The retry loop of `CachedHttpClient.post`: identical policy to `get`
except that a 5xx on the final attempt raises in place (the surfaced error is
the same) and nothing is cached. -/
def postRetryLoop (net : Nat → NetOutcome β) : Nat → Nat → Option HttpErr → PostResult β
  | _, 0, lastErr => ⟨.error (lastErr.getD .runtimeError), 0, []⟩
  | attempt, remaining + 1, _ =>
    match net attempt with
    | .response status body =>
      if 200 ≤ status ∧ status < 300 then ⟨.ok body, 1, []⟩
      else if 500 ≤ status ∧ 0 < remaining then
        let rest := postRetryLoop net (attempt + 1) remaining (some (.statusError status))
        ⟨rest.result, rest.attempts + 1, 2 ^ attempt :: rest.sleeps⟩
      else ⟨.error (.statusError status), 1, []⟩
    | .connectError =>
      let rest := postRetryLoop net (attempt + 1) remaining (some .connectError)
      ⟨rest.result, rest.attempts + 1,
        (if 0 < remaining then [2 ^ attempt] else []) ++ rest.sleeps⟩
    | .timeoutError =>
      let rest := postRetryLoop net (attempt + 1) remaining (some .timeoutError)
      ⟨rest.result, rest.attempts + 1,
        (if 0 < remaining then [2 ^ attempt] else []) ++ rest.sleeps⟩

/-- `CachedHttpClient.post`: the bare retry loop. -/
def clientPost (maxRetries : Nat) (net : Nat → NetOutcome β) : PostResult β :=
  postRetryLoop net 0 maxRetries none

/-- Two optional params dicts holding the same key-value pairs, in any
ordering. -/
def paramsPerm : Option Params → Option Params → Prop
  | some ps, some qs => ps.Perm qs
  | none, none => True
  | _, _ => False


/-! ## Order lemmas for the sort relations -/

theorem keyLE_refl (x : ℚ × Bool × Bool) : keyLE x x := by
  right
  exact ⟨rfl, Or.inr ⟨rfl, fun h => h⟩⟩

theorem keyLE_total (x y : ℚ × Bool × Bool) : keyLE x y ∨ keyLE y x := by
  rcases lt_trichotomy x.1 y.1 with h | h | h
  · exact Or.inl (Or.inl h)
  · rcases x with ⟨q, b, c⟩
    rcases y with ⟨q2, b2, c2⟩
    simp only at h
    subst h
    cases b <;> cases b2 <;> cases c <;> cases c2 <;> simp [keyLE]
  · exact Or.inr (Or.inl h)

theorem keyLE_trans (x y z : ℚ × Bool × Bool) (h1 : keyLE x y) (h2 : keyLE y z) : keyLE x z := by
  rcases h1 with h1 | ⟨e1, r1⟩
  · rcases h2 with h2 | ⟨e2, r2⟩
    · exact Or.inl (h1.trans h2)
    · exact Or.inl (lt_of_lt_of_eq h1 e2)
  · rcases h2 with h2 | ⟨e2, r2⟩
    · exact Or.inl (lt_of_eq_of_lt e1 h2)
    · refine Or.inr ⟨e1.trans e2, ?_⟩
      rcases x with ⟨q, b, c⟩
      rcases y with ⟨q2, b2, c2⟩
      rcases z with ⟨q3, b3, c3⟩
      cases b <;> cases b2 <;> cases b3 <;> cases c <;> cases c2 <;> cases c3 <;> simp_all

instance : IsTotal MediaType mtGE :=
  ⟨fun a b => keyLE_total (mtKey b) (mtKey a)⟩

instance : IsTrans MediaType mtGE :=
  ⟨fun _ _ _ h1 h2 => keyLE_trans _ _ _ h2 h1⟩

instance : IsTotal EncodingPreference epGE :=
  ⟨fun a b => le_total b.quality a.quality⟩

instance : IsTrans EncodingPreference epGE :=
  ⟨fun _ _ _ h1 h2 => le_trans h2 h1⟩

theorem strLE_total : ∀ s t, strLE s t = true ∨ strLE t s = true := by
  intro s
  induction s with
  | nil => intro t; left; rfl
  | cons a s ih =>
    intro t
    cases t with
    | nil => right; rfl
    | cons b t =>
      by_cases hab : a = b
      · subst hab
        simpa [strLE] using ih t
      · rcases lt_or_gt_of_ne hab with h | h
        · left; simp [strLE, hab, h]
        · right; simp [strLE, Ne.symm hab, h]

theorem strLE_trans : ∀ s t u, strLE s t = true → strLE t u = true → strLE s u = true := by
  intro s
  induction s with
  | nil => intro t u _ _; rfl
  | cons a s ih =>
    intro t u h1 h2
    cases t with
    | nil => simp [strLE] at h1
    | cons b t =>
      cases u with
      | nil => simp [strLE] at h2
      | cons c u =>
        simp only [strLE] at h1 h2 ⊢
        by_cases hab : a = b <;> by_cases hbc : b = c
        · subst hab; subst hbc
          simp only [if_pos rfl] at h1 h2 ⊢
          exact ih t u h1 h2
        · subst hab
          simp only [if_pos rfl, if_neg hbc] at h2
          simp only [if_neg hbc]
          exact h2
        · subst hbc
          simp only [if_neg hab] at h1
          simp only [if_neg hab]
          exact h1
        · simp only [if_neg hab, if_neg hbc, decide_eq_true_eq] at h1 h2
          have hac : a < c := h1.trans h2
          simp [ne_of_lt hac, hac]

theorem strLE_antisymm : ∀ s t, strLE s t = true → strLE t s = true → s = t := by
  intro s
  induction s with
  | nil =>
    intro t _ h2
    cases t with
    | nil => rfl
    | cons b t => simp [strLE] at h2
  | cons a s ih =>
    intro t h1 h2
    cases t with
    | nil => simp [strLE] at h1
    | cons b t =>
      by_cases hab : a = b
      · subst hab
        simp only [strLE, if_pos rfl] at h1 h2
        exact congrArg (a :: ·) (ih t h1 h2)
      · simp only [strLE, if_neg hab, if_neg (Ne.symm hab), decide_eq_true_eq] at h1 h2
        exact absurd (h1.trans h2) (lt_irrefl a)

instance : IsTotal (List Char × List Char) pairLE := by
  refine ⟨fun p q => ?_⟩
  by_cases h : p.1 = q.1
  · simp only [pairLE, if_pos h, if_pos h.symm]
    exact strLE_total p.2 q.2
  · simp only [pairLE, if_neg h, if_neg (Ne.symm h)]
    exact strLE_total p.1 q.1

instance : IsTrans (List Char × List Char) pairLE := by
  refine ⟨fun p q r h1 h2 => ?_⟩
  by_cases hpq : p.1 = q.1 <;> by_cases hqr : q.1 = r.1
  · have hpr : p.1 = r.1 := hpq.trans hqr
    simp only [pairLE, if_pos hpq] at h1
    simp only [pairLE, if_pos hqr] at h2
    simp only [pairLE, if_pos hpr]
    exact strLE_trans _ _ _ h1 h2
  · have hpr : p.1 ≠ r.1 := hpq ▸ hqr
    simp only [pairLE, if_neg hqr] at h2
    simp only [pairLE, if_neg hpr]
    exact hpq ▸ h2
  · have hpr : p.1 ≠ r.1 := fun h => hpq (h.trans hqr.symm)
    simp only [pairLE, if_neg hpq] at h1
    simp only [pairLE, if_neg hpr]
    exact hqr ▸ h1
  · simp only [pairLE, if_neg hpq] at h1
    simp only [pairLE, if_neg hqr] at h2
    by_cases hpr : p.1 = r.1
    · rw [← hpr] at h2
      exact absurd (strLE_antisymm _ _ h1 h2) hpq
    · simp only [pairLE, if_neg hpr]
      exact strLE_trans _ _ _ h1 h2

instance : IsAntisymm (List Char × List Char) pairLE := by
  refine ⟨fun p q h1 h2 => ?_⟩
  by_cases h : p.1 = q.1
  · simp only [pairLE, if_pos h] at h1
    simp only [pairLE, if_pos h.symm] at h2
    have := strLE_antisymm _ _ h1 h2
    exact Prod.ext h this
  · simp only [pairLE, if_neg h, if_neg (Ne.symm h)] at h1 h2
    exact absurd (strLE_antisymm _ _ h1 h2) h

/-! ## Stability of the stable sort -/

theorem filter_orderedInsert_pos (r : α → α → Prop) [DecidableRel r] (p : α → Bool) (a : α)
    (l : List α) (ha : p a = true) (h : ∀ b ∈ l, p b = true → r a b) :
    (List.orderedInsert r a l).filter p = a :: l.filter p := by
  rw [List.orderedInsert_eq_take_drop]
  have htake : (l.takeWhile fun b => decide ¬r a b).filter p = [] := by
    rw [List.filter_eq_nil_iff]
    intro x hx
    have hx2 : ¬r a x := by simpa using List.mem_takeWhile_imp hx
    have hxl : x ∈ l := (List.takeWhile_sublist _).mem hx
    intro hpx
    exact hx2 (h x hxl hpx)
  rw [List.filter_append, htake, List.filter_cons_of_pos ha]
  have hsplit : l.filter p =
      (l.takeWhile fun b => decide ¬r a b).filter p ++
        (l.dropWhile fun b => decide ¬r a b).filter p := by
    rw [← List.filter_append, List.takeWhile_append_dropWhile]
  rw [hsplit, htake]
  simp

theorem filter_orderedInsert_neg (r : α → α → Prop) [DecidableRel r] (p : α → Bool) (a : α)
    (l : List α) (ha : p a = false) :
    (List.orderedInsert r a l).filter p = l.filter p := by
  rw [List.orderedInsert_eq_take_drop, List.filter_append, List.filter_cons_of_neg (by simp [ha]),
    ← List.filter_append, List.takeWhile_append_dropWhile]

theorem filter_insertionSort (r : α → α → Prop) [DecidableRel r] (p : α → Bool)
    (hcls : ∀ a b, p a = true → p b = true → r a b) (l : List α) :
    (List.insertionSort r l).filter p = l.filter p := by
  induction l with
  | nil => rfl
  | cons x xs ih =>
    simp only [List.insertionSort]
    by_cases hx : p x = true
    · rw [filter_orderedInsert_pos r p x _ hx fun b _ hpb => hcls x b hx hpb, ih,
        List.filter_cons_of_pos hx]
    · have hx2 : p x = false := by simpa using hx
      rw [filter_orderedInsert_neg r p x _ hx2, ih, List.filter_cons_of_neg (by simp [hx2])]

/-! ## Characterization of the selection loops -/

theorem selectCTInner_eq_find (m : MediaType) (l : List (List Char)) :
    selectCTInner m l = l.find? fun a => m.matches a := by
  induction l with
  | nil => rfl
  | cons a rest ih =>
    cases h : m.matches a <;> simp [selectCTInner, List.find?_cons, h, ih]

theorem selectCTLoop_eq_findSome (ms : List MediaType) (avail : List (List Char)) :
    selectCTLoop ms avail = ms.findSome? fun m => avail.find? fun a => m.matches a := by
  induction ms with
  | nil => rfl
  | cons m ms ih =>
    rw [selectCTLoop, List.findSome?_cons, ← selectCTInner_eq_find]
    cases selectCTInner m avail <;> simp [ih]

theorem selectEncInner_eq_find (p : EncodingPreference) (l : List (List Char)) :
    selectEncInner p l = l.find? fun a => p.matches a := by
  induction l with
  | nil => rfl
  | cons a rest ih =>
    cases h : p.matches a <;> simp [selectEncInner, List.find?_cons, h, ih]

theorem selectEncLoop_eq_findSome (ps : List EncodingPreference) (avail : List (List Char)) :
    selectEncLoop ps avail = ps.findSome? fun p => avail.find? fun a => p.matches a := by
  induction ps with
  | nil => rfl
  | cons p ps ih =>
    rw [selectEncLoop, List.findSome?_cons, ← selectEncInner_eq_find]
    cases selectEncInner p avail <;> simp [ih]

/-! ## Prefix characterization -/

theorem hasPrefixCh_iff (p s : List Char) : hasPrefixCh p s = true ↔ ∃ t, s = p ++ t := by
  induction p generalizing s with
  | nil =>
    simp [hasPrefixCh]
  | cons c p ih =>
    cases s with
    | nil =>
      simp [hasPrefixCh]
    | cons d s =>
      simp only [hasPrefixCh, Bool.and_eq_true, decide_eq_true_eq, ih, List.cons_append]
      constructor
      · rintro ⟨rfl, t, rfl⟩
        exact ⟨t, rfl⟩
      · rintro ⟨t, h⟩
        injection h with h1 h2
        exact ⟨h1.symm, t, h2⟩

/-! ## Quality bounds -/

theorem qClamp_mem (q : ℚ) : 0 ≤ qClamp q ∧ qClamp q ≤ 1 := by
  unfold qClamp
  refine ⟨le_max_left 0 _, max_le (by norm_num) (min_le_left 1 q)⟩

theorem epLoop_mem (parts : List (List Char)) (q : ℚ) (h : 0 ≤ q ∧ q ≤ 1) :
    0 ≤ epLoop parts q ∧ epLoop parts q ≤ 1 := by
  induction parts generalizing q with
  | nil => exact h
  | cons part rest ih =>
    simp only [epLoop]
    split
    · split
      · split
        · exact ih _ (qClamp_mem _)
        · exact ih _ (by norm_num)
      · exact ih _ h
    · exact ih _ h

theorem mtParamsLoop_mem (parts : List (List Char)) (q : ℚ)
    (ps : List (List Char × List Char)) (h : 0 ≤ q ∧ q ≤ 1) :
    0 ≤ (mtParamsLoop parts q ps).1 ∧ (mtParamsLoop parts q ps).1 ≤ 1 := by
  induction parts generalizing q ps with
  | nil => exact h
  | cons part rest ih =>
    simp only [mtParamsLoop]
    split
    · split
      · split
        · exact ih _ _ (qClamp_mem _)
        · exact ih _ _ (by norm_num)
      · exact ih _ _ h
    · exact ih _ _ h

/-! ## Retry loop lemmas -/

theorem getRetryLoop_attempts_le {β : Type} (net : Nat → NetOutcome β) :
    ∀ (r a : Nat) (le : Option HttpErr), (getRetryLoop net a r le).attempts ≤ r := by
  intro r
  induction r with
  | zero => intro a le; simp [getRetryLoop]
  | succ n ih =>
    intro a le
    simp only [getRetryLoop]
    cases net a with
    | response s b =>
      by_cases h1 : 200 ≤ s ∧ s < 300
      · simp only [if_pos h1]; omega
      · by_cases h2 : 500 ≤ s
        · simp only [if_neg h1, if_pos h2]
          have := ih (a + 1) (some (.statusError s))
          omega
        · simp only [if_neg h1, if_neg h2]; omega
    | connectError =>
      have := ih (a + 1) (some .connectError)
      simpa using by omega
    | timeoutError =>
      have := ih (a + 1) (some .timeoutError)
      simpa using by omega

theorem getRetryLoop_attempts_pos {β : Type} (net : Nat → NetOutcome β) (a r : Nat)
    (le : Option HttpErr) (h : 0 < r) : 1 ≤ (getRetryLoop net a r le).attempts := by
  cases r with
  | zero => omega
  | succ n =>
    simp only [getRetryLoop]
    cases net a with
    | response s b =>
      by_cases h1 : 200 ≤ s ∧ s < 300
      · simp [if_pos h1]
      · by_cases h2 : 500 ≤ s
        · simp only [if_neg h1, if_pos h2]; omega
        · simp [if_neg h1, if_neg h2]
    | connectError => simp only []; omega
    | timeoutError => simp only []; omega

theorem getRetryLoop_sleeps {β : Type} (net : Nat → NetOutcome β) :
    ∀ (r a : Nat) (le : Option HttpErr),
      (getRetryLoop net a r le).sleeps =
        (List.range ((getRetryLoop net a r le).attempts - 1)).map fun i => 2 ^ (a + i) := by
  intro r
  induction r with
  | zero => intro a le; simp [getRetryLoop]
  | succ n ih =>
    intro a le
    have step : ∀ e : HttpErr,
        ((if 0 < n then [2 ^ a] else []) ++ (getRetryLoop net (a + 1) n (some e)).sleeps) =
          (List.range ((getRetryLoop net (a + 1) n (some e)).attempts + 1 - 1)).map
            fun i => 2 ^ (a + i) := by
      intro e
      cases n with
      | zero =>
        simp [getRetryLoop]
      | succ m =>
        have hpos := getRetryLoop_attempts_pos net (a + 1) (m + 1) (some e) (by omega)
        obtain ⟨j, hj⟩ : ∃ j, (getRetryLoop net (a + 1) (m + 1) (some e)).attempts = j + 1 :=
          ⟨(getRetryLoop net (a + 1) (m + 1) (some e)).attempts - 1, by omega⟩
        rw [ih (a + 1) (some e), hj]
        simp only [Nat.add_sub_cancel, if_pos (Nat.succ_pos m), List.range_succ_eq_map]
        simp only [List.map_cons, List.map_map, Nat.add_zero, List.cons_append,
          List.nil_append]
        congr 1
        apply List.map_congr_left
        intro i _
        simp only [Function.comp_apply]
        congr 1
        omega
    simp only [getRetryLoop]
    cases net a with
    | response s b =>
      by_cases h1 : 200 ≤ s ∧ s < 300
      · simp [if_pos h1]
      · by_cases h2 : 500 ≤ s
        · simp only [if_neg h1, if_pos h2]
          exact step (.statusError s)
        · simp [if_neg h1, if_neg h2]
    | connectError => exact step .connectError
    | timeoutError => exact step .timeoutError

theorem getRetryLoop_succ {β : Type} (net : Nat → NetOutcome β) (a r : Nat)
    (le : Option HttpErr) :
    getRetryLoop net a (r + 1) le =
      match net a with
      | .response status body =>
        if 200 ≤ status ∧ status < 300 then ⟨.ok body, 1, [], some body⟩
        else if 500 ≤ status then
          ⟨(getRetryLoop net (a + 1) r (some (.statusError status))).result,
            (getRetryLoop net (a + 1) r (some (.statusError status))).attempts + 1,
            (if 0 < r then [2 ^ a] else []) ++
              (getRetryLoop net (a + 1) r (some (.statusError status))).sleeps,
            (getRetryLoop net (a + 1) r (some (.statusError status))).cached⟩
        else ⟨.error (.statusError status), 1, [], none⟩
      | .connectError =>
        ⟨(getRetryLoop net (a + 1) r (some .connectError)).result,
          (getRetryLoop net (a + 1) r (some .connectError)).attempts + 1,
          (if 0 < r then [2 ^ a] else []) ++
            (getRetryLoop net (a + 1) r (some .connectError)).sleeps,
          (getRetryLoop net (a + 1) r (some .connectError)).cached⟩
      | .timeoutError =>
        ⟨(getRetryLoop net (a + 1) r (some .timeoutError)).result,
          (getRetryLoop net (a + 1) r (some .timeoutError)).attempts + 1,
          (if 0 < r then [2 ^ a] else []) ++
            (getRetryLoop net (a + 1) r (some .timeoutError)).sleeps,
          (getRetryLoop net (a + 1) r (some .timeoutError)).cached⟩ := by
  rfl

theorem getRetryLoop_exhaust {β : Type} (net : Nat → NetOutcome β) :
    ∀ (r a : Nat) (le : Option HttpErr), 0 < r →
      (∀ i, i < r → retryable (net (a + i)) = true) →
      (getRetryLoop net a r le).result = .error (netErr (net (a + r - 1))) ∧
        (getRetryLoop net a r le).attempts = r := by
  intro r
  induction r with
  | zero => omega
  | succ n ih =>
    intro a le _ hall
    have h0 : retryable (net a) = true := by simpa using hall 0 (by omega)
    cases n with
    | zero =>
      simp only [getRetryLoop]
      cases hnet : net a with
      | response s b =>
        rw [hnet] at h0
        have h5 : 500 ≤ s := by simpa [retryable] using h0
        simp [if_neg (by omega : ¬(200 ≤ s ∧ s < 300)), if_pos h5, getRetryLoop, hnet, netErr]
      | connectError =>
        simp [getRetryLoop, hnet, netErr]
      | timeoutError =>
        simp [getRetryLoop, hnet, netErr]
    | succ m =>
      have hshift : ∀ i, i < m + 1 → retryable (net (a + 1 + i)) = true := by
        intro i hi
        have h := hall (i + 1) (by omega)
        have heq : a + (i + 1) = a + 1 + i := by omega
        rwa [heq] at h
      have hidx : a + 1 + (m + 1) - 1 = a + (m + 1 + 1) - 1 := by omega
      cases hnet : net a with
      | response s b =>
        rw [hnet] at h0
        have h5 : 500 ≤ s := by simpa [retryable] using h0
        have hrec := ih (a + 1) (some (.statusError s)) (by omega) hshift
        rw [hidx] at hrec
        rw [getRetryLoop_succ, hnet]
        simp only [if_neg (by omega : ¬(200 ≤ s ∧ s < 300)), if_pos h5]
        exact ⟨hrec.1, by rw [hrec.2]⟩
      | connectError =>
        have hrec := ih (a + 1) (some .connectError) (by omega) hshift
        rw [hidx] at hrec
        rw [getRetryLoop_succ, hnet]
        exact ⟨hrec.1, by rw [hrec.2]⟩
      | timeoutError =>
        have hrec := ih (a + 1) (some .timeoutError) (by omega) hshift
        rw [hidx] at hrec
        rw [getRetryLoop_succ, hnet]
        exact ⟨hrec.1, by rw [hrec.2]⟩

theorem getRetryLoop_no_generic {β : Type} (net : Nat → NetOutcome β) :
    ∀ (r a : Nat) (le : Option HttpErr),
      (0 < r ∨ ∃ e, le = some e ∧ e ≠ .runtimeError) →
      (getRetryLoop net a r le).result ≠ .error .runtimeError := by
  intro r
  induction r with
  | zero =>
    intro a le h
    rcases h with h | ⟨e, rfl, he⟩
    · omega
    · simpa [getRetryLoop] using he
  | succ n ih =>
    intro a le _
    rw [getRetryLoop_succ]
    cases net a with
    | response s b =>
      by_cases h1 : 200 ≤ s ∧ s < 300
      · simp [if_pos h1]
      · by_cases h2 : 500 ≤ s
        · simp only [if_neg h1, if_pos h2]
          exact ih (a + 1) (some (.statusError s)) (Or.inr ⟨_, rfl, by simp⟩)
        · simp [if_neg h1, if_neg h2]
    | connectError =>
      exact ih (a + 1) (some .connectError) (Or.inr ⟨_, rfl, by simp⟩)
    | timeoutError =>
      exact ih (a + 1) (some .timeoutError) (Or.inr ⟨_, rfl, by simp⟩)

theorem postRetryLoop_succ {β : Type} (net : Nat → NetOutcome β) (a r : Nat)
    (le : Option HttpErr) :
    postRetryLoop net a (r + 1) le =
      match net a with
      | .response status body =>
        if 200 ≤ status ∧ status < 300 then ⟨.ok body, 1, []⟩
        else if 500 ≤ status ∧ 0 < r then
          ⟨(postRetryLoop net (a + 1) r (some (.statusError status))).result,
            (postRetryLoop net (a + 1) r (some (.statusError status))).attempts + 1,
            2 ^ a :: (postRetryLoop net (a + 1) r (some (.statusError status))).sleeps⟩
        else ⟨.error (.statusError status), 1, []⟩
      | .connectError =>
        ⟨(postRetryLoop net (a + 1) r (some .connectError)).result,
          (postRetryLoop net (a + 1) r (some .connectError)).attempts + 1,
          (if 0 < r then [2 ^ a] else []) ++
            (postRetryLoop net (a + 1) r (some .connectError)).sleeps⟩
      | .timeoutError =>
        ⟨(postRetryLoop net (a + 1) r (some .timeoutError)).result,
          (postRetryLoop net (a + 1) r (some .timeoutError)).attempts + 1,
          (if 0 < r then [2 ^ a] else []) ++
            (postRetryLoop net (a + 1) r (some .timeoutError)).sleeps⟩ := by
  rfl

theorem postRetryLoop_attempts_le {β : Type} (net : Nat → NetOutcome β) :
    ∀ (r a : Nat) (le : Option HttpErr), (postRetryLoop net a r le).attempts ≤ r := by
  intro r
  induction r with
  | zero => intro a le; simp [postRetryLoop]
  | succ n ih =>
    intro a le
    rw [postRetryLoop_succ]
    cases net a with
    | response s b =>
      by_cases h1 : 200 ≤ s ∧ s < 300
      · simp only [if_pos h1]; omega
      · by_cases h2 : 500 ≤ s ∧ 0 < n
        · simp only [if_neg h1, if_pos h2]
          have := ih (a + 1) (some (.statusError s))
          omega
        · simp only [if_neg h1, if_neg h2]; omega
    | connectError =>
      have := ih (a + 1) (some .connectError)
      simp only []
      omega
    | timeoutError =>
      have := ih (a + 1) (some .timeoutError)
      simp only []
      omega

theorem postRetryLoop_attempts_pos {β : Type} (net : Nat → NetOutcome β) (a r : Nat)
    (le : Option HttpErr) (h : 0 < r) : 1 ≤ (postRetryLoop net a r le).attempts := by
  cases r with
  | zero => omega
  | succ n =>
    rw [postRetryLoop_succ]
    cases net a with
    | response s b =>
      by_cases h1 : 200 ≤ s ∧ s < 300
      · simp [if_pos h1]
      · by_cases h2 : 500 ≤ s ∧ 0 < n
        · simp only [if_neg h1, if_pos h2]; omega
        · simp [if_neg h1, if_neg h2]
    | connectError => simp only []; omega
    | timeoutError => simp only []; omega

theorem postRetryLoop_sleeps {β : Type} (net : Nat → NetOutcome β) :
    ∀ (r a : Nat) (le : Option HttpErr),
      (postRetryLoop net a r le).sleeps =
        (List.range ((postRetryLoop net a r le).attempts - 1)).map fun i => 2 ^ (a + i) := by
  intro r
  induction r with
  | zero => intro a le; simp [postRetryLoop]
  | succ n ih =>
    intro a le
    have step : ∀ e : HttpErr, 0 < n →
        (2 ^ a :: (postRetryLoop net (a + 1) n (some e)).sleeps) =
          (List.range ((postRetryLoop net (a + 1) n (some e)).attempts + 1 - 1)).map
            fun i => 2 ^ (a + i) := by
      intro e hn
      have hpos := postRetryLoop_attempts_pos net (a + 1) n (some e) hn
      obtain ⟨j, hj⟩ : ∃ j, (postRetryLoop net (a + 1) n (some e)).attempts = j + 1 :=
        ⟨(postRetryLoop net (a + 1) n (some e)).attempts - 1, by omega⟩
      rw [ih (a + 1) (some e), hj]
      simp only [Nat.add_sub_cancel, List.range_succ_eq_map]
      simp only [List.map_cons, List.map_map, Nat.add_zero]
      congr 1
      apply List.map_congr_left
      intro i _
      simp only [Function.comp_apply]
      congr 1
      omega
    have step2 : ∀ e : HttpErr,
        ((if 0 < n then [2 ^ a] else []) ++ (postRetryLoop net (a + 1) n (some e)).sleeps) =
          (List.range ((postRetryLoop net (a + 1) n (some e)).attempts + 1 - 1)).map
            fun i => 2 ^ (a + i) := by
      intro e
      cases n with
      | zero => simp [postRetryLoop]
      | succ m =>
        rw [if_pos (Nat.succ_pos m)]
        simpa using step e (Nat.succ_pos m)
    rw [postRetryLoop_succ]
    cases net a with
    | response s b =>
      by_cases h1 : 200 ≤ s ∧ s < 300
      · simp [if_pos h1]
      · by_cases h2 : 500 ≤ s ∧ 0 < n
        · simp only [if_neg h1, if_pos h2]
          exact step (.statusError s) h2.2
        · simp [if_neg h1, if_neg h2]
    | connectError => exact step2 .connectError
    | timeoutError => exact step2 .timeoutError

theorem postRetryLoop_exhaust {β : Type} (net : Nat → NetOutcome β) :
    ∀ (r a : Nat) (le : Option HttpErr), 0 < r →
      (∀ i, i < r → retryable (net (a + i)) = true) →
      (postRetryLoop net a r le).result = .error (netErr (net (a + r - 1))) ∧
        (postRetryLoop net a r le).attempts = r := by
  intro r
  induction r with
  | zero => omega
  | succ n ih =>
    intro a le _ hall
    have h0 : retryable (net a) = true := by simpa using hall 0 (by omega)
    cases n with
    | zero =>
      rw [postRetryLoop_succ]
      cases hnet : net a with
      | response s b =>
        rw [hnet] at h0
        have h5 : 500 ≤ s := by simpa [retryable] using h0
        simp [if_neg (by omega : ¬(200 ≤ s ∧ s < 300)), if_neg (by omega : ¬(500 ≤ s ∧ 0 < 0)),
          postRetryLoop, hnet, netErr]
      | connectError =>
        simp [postRetryLoop, hnet, netErr]
      | timeoutError =>
        simp [postRetryLoop, hnet, netErr]
    | succ m =>
      have hshift : ∀ i, i < m + 1 → retryable (net (a + 1 + i)) = true := by
        intro i hi
        have h := hall (i + 1) (by omega)
        have heq : a + (i + 1) = a + 1 + i := by omega
        rwa [heq] at h
      have hidx : a + 1 + (m + 1) - 1 = a + (m + 1 + 1) - 1 := by omega
      cases hnet : net a with
      | response s b =>
        rw [hnet] at h0
        have h5 : 500 ≤ s := by simpa [retryable] using h0
        have hrec := ih (a + 1) (some (.statusError s)) (by omega) hshift
        rw [hidx] at hrec
        rw [postRetryLoop_succ, hnet]
        simp only [if_neg (by omega : ¬(200 ≤ s ∧ s < 300)), if_pos (⟨h5, by omega⟩ : 500 ≤ s ∧ 0 < m + 1)]
        exact ⟨hrec.1, by rw [hrec.2]⟩
      | connectError =>
        have hrec := ih (a + 1) (some .connectError) (by omega) hshift
        rw [hidx] at hrec
        rw [postRetryLoop_succ, hnet]
        exact ⟨hrec.1, by rw [hrec.2]⟩
      | timeoutError =>
        have hrec := ih (a + 1) (some .timeoutError) (by omega) hshift
        rw [hidx] at hrec
        rw [postRetryLoop_succ, hnet]
        exact ⟨hrec.1, by rw [hrec.2]⟩

theorem postRetryLoop_no_generic {β : Type} (net : Nat → NetOutcome β) :
    ∀ (r a : Nat) (le : Option HttpErr),
      (0 < r ∨ ∃ e, le = some e ∧ e ≠ .runtimeError) →
      (postRetryLoop net a r le).result ≠ .error .runtimeError := by
  intro r
  induction r with
  | zero =>
    intro a le h
    rcases h with h | ⟨e, rfl, he⟩
    · omega
    · simpa [postRetryLoop] using he
  | succ n ih =>
    intro a le _
    rw [postRetryLoop_succ]
    cases net a with
    | response s b =>
      by_cases h1 : 200 ≤ s ∧ s < 300
      · simp [if_pos h1]
      · by_cases h2 : 500 ≤ s ∧ 0 < n
        · simp only [if_neg h1, if_pos h2]
          exact ih (a + 1) (some (.statusError s)) (Or.inr ⟨_, rfl, by simp⟩)
        · simp [if_neg h1, if_neg h2]
    | connectError =>
      exact ih (a + 1) (some .connectError) (Or.inr ⟨_, rfl, by simp⟩)
    | timeoutError =>
      exact ih (a + 1) (some .timeoutError) (Or.inr ⟨_, rfl, by simp⟩)

/-! ## Cache lemmas -/

theorem lookupEntry_setEntry {β : Type} (cache : Cache β) (k : List Char)
    (vt : Option β × Nat) : lookupEntry (setEntry cache k vt) k = some vt := by
  induction cache with
  | nil => simp [setEntry, lookupEntry, List.find?]
  | cons e rest ih =>
    by_cases h : e.1 = k
    · simp [setEntry, if_pos h, lookupEntry, List.find?]
    · simp only [setEntry, if_neg h]
      simp only [lookupEntry, List.find?_cons] at ih ⊢
      simp only [decide_eq_false h]
      exact ih

theorem getCached_of_null {β : Type} (ttl now : Nat) (cache : Cache β) (k : List Char)
    (t : Nat) (h : lookupEntry cache k = some (none, t)) :
    getCached ttl now cache k = none := by
  unfold getCached
  split
  · rw [h]
  · rfl

theorem getCached_of_missing {β : Type} (ttl now : Nat) (cache : Cache β) (k : List Char)
    (h : lookupEntry cache k = none) : getCached ttl now cache k = none := by
  unfold getCached
  split
  · rw [h]
  · rfl

theorem getCached_valid {β : Type} (ttl now : Nat) (cache : Cache β) (k : List Char)
    (v : Option β) (t : Nat) (h : lookupEntry cache k = some (v, t))
    (httl : (now : Int) - t < ttl) : getCached ttl now cache k = v := by
  unfold getCached isCacheValid
  rw [h]
  simp [httl]

/-! ## Deterministic cache keys under params reordering -/

theorem insertionSort_params_perm (ps qs : Params) (h : ps.Perm qs) :
    List.insertionSort pairLE ps = List.insertionSort pairLE qs :=
  List.eq_of_perm_of_sorted
    ((List.perm_insertionSort pairLE ps).trans (h.trans (List.perm_insertionSort pairLE qs).symm))
    (List.sorted_insertionSort pairLE ps) (List.sorted_insertionSort pairLE qs)

theorem cacheKey_congr (url : List Char) (p q : Option Params) (h : paramsPerm p q) :
    cacheKey url p = cacheKey url q := by
  cases p with
  | none =>
    cases q with
    | none => rfl
    | some qs => exact absurd h (by simp [paramsPerm])
  | some ps =>
    cases q with
    | none => exact absurd h (by simp [paramsPerm])
    | some qs =>
      have hp : ps.Perm qs := h
      by_cases he : ps = []
      · subst he
        have : qs = [] := hp.symm.eq_nil  
        subst this
        rfl
      · have hqe : qs ≠ [] := by
          intro hq
          subst hq
          exact he hp.eq_nil
        simp only [cacheKey, if_pos, he, hqe, ne_eq, not_false_iff, if_true,
          insertionSort_params_perm ps qs hp]

/-! ## Small facts about the compression gate -/

theorem should_compress_empty (minSize contentSize : Nat) :
    should_compress [] minSize contentSize = false := by
  simp [should_compress]

/-! ## Claim theorems -/

/-- Claim C2: `should_compress` returns false whenever the content size is below
the minimum or the header is empty; otherwise it returns true iff some
parsed encoding preference names exactly gzip, deflate or br with quality
strictly greater than 0. -/
theorem shouldCompress_spec (h : List Char) (minSize contentSize : Nat) :
    (contentSize < minSize → should_compress h minSize contentSize = false) ∧
    (h = [] → should_compress h minSize contentSize = false) ∧
    (minSize ≤ contentSize → h ≠ [] →
      (should_compress h minSize contentSize = true ↔
        ∃ p ∈ parse_accept_encoding_header h,
          (p.encoding = "gzip".toList ∨ p.encoding = "deflate".toList ∨
            p.encoding = "br".toList) ∧ 0 < p.quality)) := by
  refine ⟨?_, ?_, ?_⟩
  · intro hlt
    simp [should_compress, hlt]
  · intro he
    subst he
    exact should_compress_empty minSize contentSize
  · intro hge hne
    have hnlt : ¬contentSize < minSize := by omega
    simp only [should_compress, if_neg hnlt, if_neg hne, List.any_eq_true,
      decide_eq_true_eq]

/-- Witness for claim C2: a compressible header and size instantiate the
characterization. -/
theorem shouldCompress_spec_witness :
    should_compress "gzip".toList 0 5 = true :=
  ((shouldCompress_spec "gzip".toList 0 5).2.2 (by omega) (by decide)).mpr (by decide)

/-- Claim C3: `select_encoding` returns identity on the empty header regardless of
availability; on a non-empty header it walks the quality-sorted preferences
and returns the first available encoding matched (exactly or by wildcard),
falling back to identity when available and `None` otherwise; in particular
`select_encoding "br" ["gzip","identity"] = "identity"` and
`select_encoding "br" ["gzip","deflate"]` is `None`. -/
theorem selectEncoding_spec :
    (∀ avail, select_encoding [] avail = some "identity".toList) ∧
    (∀ h avail, h ≠ [] →
      select_encoding h avail =
        match (parse_accept_encoding_header h).findSome?
            (fun p => avail.find? fun a => p.matches a) with
        | some e => some e
        | none =>
          if avail.contains "identity".toList then some "identity".toList else none) ∧
    (∀ h avail, h ≠ [] →
      (∀ p ∈ parse_accept_encoding_header h, ∀ a ∈ avail, p.matches a = false) →
      select_encoding h avail =
        if avail.contains "identity".toList then some "identity".toList else none) ∧
    select_encoding "br".toList ["gzip".toList, "identity".toList] =
      some "identity".toList ∧
    select_encoding "br".toList ["gzip".toList, "deflate".toList] = none := by
  have hmain : ∀ h avail, h ≠ [] →
      select_encoding h avail =
        match (parse_accept_encoding_header h).findSome?
            (fun p => avail.find? fun a => p.matches a) with
        | some e => some e
        | none =>
          if avail.contains "identity".toList then some "identity".toList else none := by
    intro h avail hne
    simp only [select_encoding, if_neg hne, selectEncLoop_eq_findSome]
  refine ⟨fun avail => rfl, hmain, ?_, by decide, by decide⟩
  intro h avail hne hnone
  rw [hmain h avail hne]
  have : (parse_accept_encoding_header h).findSome?
      (fun p => avail.find? fun a => p.matches a) = none := by
    rw [List.findSome?_eq_none_iff]
    intro p hp
    rw [List.find?_eq_none]
    intro a ha
    simp [hnone p hp a ha]
  rw [this]

/-- Witness for claim C3: the no-match fallback clause at a concrete header with no
available encodings. -/
theorem selectEncoding_spec_witness :
    select_encoding "br".toList [] = none :=
  selectEncoding_spec.2.2.1 "br".toList [] (by decide) (by decide)

/-- Claim C4: `select_content_type` returns the first available type on the empty
header (absent when none), otherwise walks the parsed quality-sorted
preferences, scanning the available types in caller order and returning the
first match, where `*/*` matches anything, `type/*` matches exactly the
available types whose type component equals `type` (i.e. those of the form
`type ++ "/" ++ rest`), and any other preference matches only the exactly
equal `type/subtype` string; absent when nothing matches. -/
theorem selectContentType_spec :
    (∀ avail, select_content_type [] avail = avail.head?) ∧
    (∀ h avail, h ≠ [] →
      select_content_type h avail =
        (parse_accept_header h).findSome? fun m => avail.find? fun a => m.matches a) ∧
    (∀ (m : MediaType) (ct : List Char), m.type = ['*'] → m.subtype = ['*'] →
      m.matches ct = true) ∧
    (∀ (m : MediaType) (ct : List Char), ¬(m.type = ['*'] ∧ m.subtype = ['*']) →
      m.subtype = ['*'] →
      (m.matches ct = true ↔ ∃ rest, ct = m.type ++ '/' :: rest)) ∧
    (∀ (m : MediaType) (ct : List Char), m.subtype ≠ ['*'] →
      (m.matches ct = true ↔ ct = m.type ++ '/' :: m.subtype)) ∧
    (∀ h avail, h ≠ [] →
      (∀ m ∈ parse_accept_header h, ∀ a ∈ avail, m.matches a = false) →
      select_content_type h avail = none) ∧
    select_content_type "application/json, text/*".toList
      ["application/json".toList, "text/html".toList] =
      some "application/json".toList := by
  have hmain : ∀ h avail, h ≠ [] →
      select_content_type h avail =
        (parse_accept_header h).findSome? fun m => avail.find? fun a => m.matches a := by
    intro h avail hne
    simp only [select_content_type, if_neg hne, selectCTLoop_eq_findSome]
  refine ⟨fun avail => rfl, hmain, ?_, ?_, ?_, ?_, by decide⟩
  · intro m ct h1 h2
    simp [MediaType.matches, h1, h2]
  · intro m ct h1 h2
    simp only [MediaType.matches, if_neg h1, if_pos h2, hasPrefixCh_iff]
    constructor
    · rintro ⟨t, rfl⟩
      exact ⟨t, by simp⟩
    · rintro ⟨t, rfl⟩
      exact ⟨t, by simp⟩
  · intro m ct h2
    have h1 : ¬(m.type = ['*'] ∧ m.subtype = ['*']) := fun hc => h2 hc.2
    simp only [MediaType.matches, if_neg h1, if_neg h2, MediaType.full_type,
      decide_eq_true_eq]
  · intro h avail hne hnone
    rw [hmain h avail hne]
    rw [List.findSome?_eq_none_iff]
    intro m hm
    rw [List.find?_eq_none]
    intro a ha
    simp [hnone m hm a ha]

/-- Witness for claim C4: the no-match clause at a concrete header and empty list of
available types. -/
theorem selectContentType_spec_witness :
    select_content_type "text/html".toList [] = none :=
  selectContentType_spec.2.2.2.2.2.1 "text/html".toList [] (by decide) (by decide)

/-- Claim C5: `parse_accept_header` returns its entries stably sorted in descending
order of the key `(quality, type != "*", subtype != "*")` (a permutation of
the raw entries, pairwise descending, with equal-key entries keeping their
input order), `parse_accept_encoding_header` sorts purely by quality
descending in the same stable sense, and the empty input yields the empty
sequence for both; the spec scenario orders
`"gzip; q=0.8, deflate, br; q=0.5"` as deflate, gzip, br. -/
theorem parseHeader_ordering_spec :
    parse_accept_header [] = [] ∧
    parse_accept_encoding_header [] = [] ∧
    (∀ h, (parse_accept_header h).Pairwise mtGE) ∧
    (∀ h, (parse_accept_header h).Perm (rawAcceptEntries h)) ∧
    (∀ h k, (parse_accept_header h).filter (fun m => decide (mtKey m = k)) =
      (rawAcceptEntries h).filter fun m => decide (mtKey m = k)) ∧
    (∀ h, (parse_accept_encoding_header h).Pairwise epGE) ∧
    (∀ h, (parse_accept_encoding_header h).Perm (rawEncodingEntries h)) ∧
    (∀ h q, (parse_accept_encoding_header h).filter (fun e => decide (e.quality = q)) =
      (rawEncodingEntries h).filter fun e => decide (e.quality = q)) ∧
    parse_accept_encoding_header "gzip; q=0.8, deflate, br; q=0.5".toList =
      [⟨"deflate".toList, 1⟩, ⟨"gzip".toList, mkRat 4 5⟩, ⟨"br".toList, mkRat 1 2⟩] := by
  refine ⟨rfl, rfl, ?_, ?_, ?_, ?_, ?_, ?_, by decide⟩
  · intro h
    exact List.sorted_insertionSort mtGE (rawAcceptEntries h)
  · intro h
    exact List.perm_insertionSort mtGE (rawAcceptEntries h)
  · intro h k
    apply filter_insertionSort
    intro a b ha hb
    have ha2 : mtKey a = k := by simpa using ha
    have hb2 : mtKey b = k := by simpa using hb
    show keyLE (mtKey b) (mtKey a)
    rw [ha2, hb2]
    exact keyLE_refl k
  · intro h
    exact List.sorted_insertionSort epGE (rawEncodingEntries h)
  · intro h
    exact List.perm_insertionSort epGE (rawEncodingEntries h)
  · intro h q
    apply filter_insertionSort
    intro a b ha hb
    have ha2 : a.quality = q := by simpa using ha
    have hb2 : b.quality = q := by simpa using hb
    show b.quality ≤ a.quality
    rw [ha2, hb2]

/-- Claim C6: every quality produced by `parse_media_type` or
`parse_encoding_preference` lies in [0,1]: out-of-range numeric q values are
clamped to the nearest bound and non-numeric q values default to 1.0. -/
theorem quality_clamped_spec (s : List Char) :
    (0 ≤ (parse_media_type s).quality ∧ (parse_media_type s).quality ≤ 1) ∧
    (0 ≤ (parse_encoding_preference s).quality ∧
      (parse_encoding_preference s).quality ≤ 1) ∧
    (parse_media_type "a/b; q=1.5".toList).quality = 1 ∧
    (parse_media_type "a/b; q=-0.5".toList).quality = 0 ∧
    (parse_media_type "a/b; q=abc".toList).quality = 1 ∧
    (parse_encoding_preference "gzip; q=1.5".toList).quality = 1 ∧
    (parse_encoding_preference "gzip; q=-0.5".toList).quality = 0 ∧
    (parse_encoding_preference "gzip; q=abc".toList).quality = 1 := by
  refine ⟨?_, ?_, by decide, by decide, by decide, by decide, by decide, by decide⟩
  · exact mtParamsLoop_mem _ 1 [] (by norm_num)
  · exact epLoop_mem _ 1 (by norm_num)

theorem should_compress_ne_nil (h : List Char) (m c : Nat)
    (hs : should_compress h m c = true) : h ≠ [] := by
  intro he
  subst he
  rw [should_compress_empty] at hs
  exact Bool.false_ne_true hs

/-- Claim C1: `serialize_with_negotiation` returns the gzip-compressed bytes of the
charset-encoded JSON with headers Content-Type, Content-Encoding gzip and
Content-Length of the compressed length exactly when the Accept-Encoding
header is present, `should_compress` accepts, and `select_encoding` picks
gzip; in every other case it returns the JSON text with Content-Length the
byte length of the encoded JSON and no Content-Encoding header.  (The
charset is assumed non-empty: an unknown empty charset would make the
Python `encode` call raise before any header is built.) -/
theorem serializeWithNegotiation_spec (gzipC : List Nat → List Nat)
    (encodeB : List Char → List Nat) (json_str : List Char)
    (accept_encoding : Option (List Char)) (min_compress_size : Nat)
    (charset : List Char) (hcs : charset ≠ []) :
    (∀ ae, accept_encoding = some ae →
      should_compress ae min_compress_size (encodeB json_str).length = true →
      select_encoding ae ["gzip".toList, "identity".toList] = some "gzip".toList →
      serialize_with_negotiation gzipC encodeB json_str accept_encoding
          min_compress_size charset =
        (Sum.inr (gzipC (encodeB json_str)),
          [("Content-Type".toList, "application/json; charset=".toList ++ charset),
            ("Content-Encoding".toList, "gzip".toList),
            ("Content-Length".toList, natToStr (gzipC (encodeB json_str)).length)])) ∧
    ((∀ ae, accept_encoding = some ae →
        ¬(should_compress ae min_compress_size (encodeB json_str).length = true ∧
          select_encoding ae ["gzip".toList, "identity".toList] = some "gzip".toList)) →
      serialize_with_negotiation gzipC encodeB json_str accept_encoding
          min_compress_size charset =
        (Sum.inl json_str,
          [("Content-Type".toList, "application/json; charset=".toList ++ charset),
            ("Content-Length".toList, natToStr (encodeB json_str).length)]) ∧
      ∀ p ∈ (serialize_with_negotiation gzipC encodeB json_str accept_encoding
          min_compress_size charset).2, p.1 ≠ "Content-Encoding".toList) := by
  have happ : "application/json".toList ++ "; charset=".toList =
      "application/json; charset=".toList := by decide
  have hct : build_content_type_header "application/json".toList (some charset) =
      "application/json; charset=".toList ++ charset := by
    simp only [build_content_type_header, if_pos hcs]
    rw [← happ, List.append_assoc]
  constructor
  · intro ae hae hsc hse
    subst hae
    have hne : ae ≠ [] := should_compress_ne_nil _ _ _ hsc
    simp only [serialize_with_negotiation]
    rw [if_pos ⟨hne, hsc⟩, hse, hct]
    simp
  · intro hnot
    have heq : serialize_with_negotiation gzipC encodeB json_str accept_encoding
        min_compress_size charset =
        (Sum.inl json_str,
          [("Content-Type".toList, "application/json; charset=".toList ++ charset),
            ("Content-Length".toList, natToStr (encodeB json_str).length)]) := by
      cases accept_encoding with
      | none =>
        simp only [serialize_with_negotiation]
        rw [hct]
        rfl
      | some ae =>
        have h2 := hnot ae rfl
        by_cases hsc : should_compress ae min_compress_size (encodeB json_str).length = true
        · have hne : ae ≠ [] := should_compress_ne_nil _ _ _ hsc
          have hselne : select_encoding ae ["gzip".toList, "identity".toList] ≠
              some "gzip".toList := fun hs => h2 ⟨hsc, hs⟩
          simp only [serialize_with_negotiation]
          rw [if_pos ⟨hne, hsc⟩, hct]
          cases hsel : select_encoding ae ["gzip".toList, "identity".toList] with
          | none => simp
          | some e =>
            have hegz : e ≠ "gzip".toList := fun he => hselne (by rw [hsel, he])
            have hegz2 : ¬e = ['g', 'z', 'i', 'p'] := hegz
            simp [hegz2]
        · simp only [serialize_with_negotiation]
          rw [if_neg fun hand => hsc hand.2, hct]
          simp
    refine ⟨heq, ?_⟩
    rw [heq]
    intro p hp
    simp only [List.mem_cons, List.not_mem_nil, or_false] at hp
    rcases hp with rfl | rfl
    · show "Content-Type".toList ≠ "Content-Encoding".toList
      decide
    · show "Content-Length".toList ≠ "Content-Encoding".toList
      decide

/-- Witness for claim C1: a concrete compressing instantiation. -/
theorem serializeWithNegotiation_spec_witness :
    serialize_with_negotiation (fun _ => [7]) (fun l => l.map Char.toNat) "ab".toList
        (some "gzip".toList) 0 "utf-8".toList =
      (Sum.inr [7],
        [("Content-Type".toList, "application/json; charset=".toList ++ "utf-8".toList),
          ("Content-Encoding".toList, "gzip".toList),
          ("Content-Length".toList, natToStr 1)]) :=
  (serializeWithNegotiation_spec (fun _ => [7]) (fun l => l.map Char.toNat) "ab".toList
    (some "gzip".toList) 0 "utf-8".toList (by decide)).1 "gzip".toList rfl
    (by decide) (by decide)

theorem cacheKey_ne_nil (url : List Char) (params : Option Params) :
    cacheKey url params ≠ [] := by
  simp [cacheKey, md5hexModel]

theorem clientGet_miss {β : Type} (ttl maxR : Nat) (cache : Cache β) (now : Nat)
    (net : Nat → NetOutcome β) (url : List Char) (params : Option Params)
    (hmiss : getCached ttl now cache (cacheKey url params) = none) :
    clientGet ttl maxR cache now net url params true =
      ⟨(getRetryLoop net 0 maxR none).result, (getRetryLoop net 0 maxR none).attempts,
        (getRetryLoop net 0 maxR none).sleeps,
        match (getRetryLoop net 0 maxR none).cached with
        | some body => setEntry cache (cacheKey url params) (body, now)
        | none => cache⟩ := by
  simp only [clientGet, if_true, if_pos (cacheKey_ne_nil url params), hmiss]

theorem clientGet_hit {β : Type} (ttl maxR : Nat) (cache : Cache β) (now : Nat)
    (net : Nat → NetOutcome β) (url : List Char) (params : Option Params) (v : β)
    (hhit : getCached ttl now cache (cacheKey url params) = some v) :
    clientGet ttl maxR cache now net url params true = ⟨.ok (some v), 0, [], cache⟩ := by
  simp only [clientGet, if_true, if_pos (cacheKey_ne_nil url params), hhit]

theorem clientGet_no_cache {β : Type} (ttl maxR : Nat) (cache : Cache β) (now : Nat)
    (net : Nat → NetOutcome β) (url : List Char) (params : Option Params) :
    clientGet ttl maxR cache now net url params false =
      ⟨(getRetryLoop net 0 maxR none).result, (getRetryLoop net 0 maxR none).attempts,
        (getRetryLoop net 0 maxR none).sleeps, cache⟩ :=
  rfl

theorem clientGet_cases {β : Type} (ttl maxR : Nat) (cache : Cache β) (now : Nat)
    (net : Nat → NetOutcome β) (url : List Char) (params : Option Params) (uc : Bool) :
    (∃ v, clientGet ttl maxR cache now net url params uc = ⟨.ok (some v), 0, [], cache⟩) ∨
    ((clientGet ttl maxR cache now net url params uc).result =
        (getRetryLoop net 0 maxR none).result ∧
      (clientGet ttl maxR cache now net url params uc).attempts =
        (getRetryLoop net 0 maxR none).attempts ∧
      (clientGet ttl maxR cache now net url params uc).sleeps =
        (getRetryLoop net 0 maxR none).sleeps) := by
  cases uc with
  | false =>
    right
    rw [clientGet_no_cache]
    exact ⟨rfl, rfl, rfl⟩
  | true =>
    cases hgc : getCached ttl now cache (cacheKey url params) with
    | some v =>
      left
      exact ⟨v, clientGet_hit ttl maxR cache now net url params v hgc⟩
    | none =>
      right
      rw [clientGet_miss ttl maxR cache now net url params hgc]
      exact ⟨rfl, rfl, rfl⟩

/-- Claim C7: a GET whose first attempt receives a 4xx status (error status below
500) raises that error after exactly one network attempt, with no backoff
sleep and the cache left unchanged. -/
theorem clientError_no_retry {β : Type} (ttl maxR : Nat) (cache : Cache β) (now : Nat)
    (net : Nat → NetOutcome β) (url : List Char) (params : Option Params)
    (s : Nat) (b : Option β) (hmax : 0 < maxR)
    (hmiss : getCached ttl now cache (cacheKey url params) = none)
    (hnet : net 0 = .response s b) (h4 : 400 ≤ s) (h5 : s < 500) :
    clientGet ttl maxR cache now net url params true =
      ⟨.error (.statusError s), 1, [], cache⟩ := by
  obtain ⟨m, rfl⟩ : ∃ m, maxR = m + 1 := ⟨maxR - 1, by omega⟩
  have hloop : getRetryLoop net 0 (m + 1) none =
      ⟨.error (.statusError s), 1, [], none⟩ := by
    rw [getRetryLoop_succ, hnet]
    simp only [if_neg (by omega : ¬(200 ≤ s ∧ s < 300)), if_neg (by omega : ¬500 ≤ s)]
  rw [clientGet_miss ttl (m + 1) cache now net url params hmiss, hloop]

/-- Witness for claim C7: a concrete 404 response. -/
theorem clientError_no_retry_witness :
    clientGet 120 3 ([] : Cache Nat) 0 (fun _ => .response 404 none) "u".toList none true =
      ⟨.error (.statusError 404), 1, [], []⟩ :=
  clientError_no_retry 120 3 [] 0 (fun _ => .response 404 none) "u".toList none 404 none
    (by omega) rfl rfl (by omega) (by omega)

/-- Claim C8: GET and POST never issue more than `maxRetries` network attempts; the
backoff sleeps performed are exactly `2 ^ attempt` seconds for the 0-indexed
attempts before each retry (so a call making `n` attempts sleeps
`1s, 2s, …, 2^(n-2)s`); when every attempt fails retryably the last
encountered error is surfaced; and with at least one attempt available the
generic no-error failure is never raised. -/
theorem retryBackoff_spec {β : Type} :
    (∀ (ttl maxR : Nat) (cache : Cache β) (now : Nat) (net : Nat → NetOutcome β)
        url params uc,
      (clientGet ttl maxR cache now net url params uc).attempts ≤ maxR) ∧
    (∀ (ttl maxR : Nat) (cache : Cache β) (now : Nat) (net : Nat → NetOutcome β)
        url params uc,
      (clientGet ttl maxR cache now net url params uc).sleeps =
        (List.range ((clientGet ttl maxR cache now net url params uc).attempts - 1)).map
          fun i => 2 ^ i) ∧
    (∀ (ttl maxR : Nat) (cache : Cache β) (now : Nat) (net : Nat → NetOutcome β)
        url params,
      getCached ttl now cache (cacheKey url params) = none → 0 < maxR →
      (∀ i, i < maxR → retryable (net i) = true) →
      (clientGet ttl maxR cache now net url params true).result =
          .error (netErr (net (maxR - 1))) ∧
        (clientGet ttl maxR cache now net url params true).attempts = maxR) ∧
    (∀ (ttl maxR : Nat) (cache : Cache β) (now : Nat) (net : Nat → NetOutcome β)
        url params uc, 0 < maxR →
      (clientGet ttl maxR cache now net url params uc).result ≠ .error .runtimeError) ∧
    (∀ (maxR : Nat) (net : Nat → NetOutcome β), (clientPost maxR net).attempts ≤ maxR) ∧
    (∀ (maxR : Nat) (net : Nat → NetOutcome β),
      (clientPost maxR net).sleeps =
        (List.range ((clientPost maxR net).attempts - 1)).map fun i => 2 ^ i) ∧
    (∀ (maxR : Nat) (net : Nat → NetOutcome β), 0 < maxR →
      (∀ i, i < maxR → retryable (net i) = true) →
      (clientPost maxR net).result = .error (netErr (net (maxR - 1))) ∧
        (clientPost maxR net).attempts = maxR) ∧
    (∀ (maxR : Nat) (net : Nat → NetOutcome β), 0 < maxR →
      (clientPost maxR net).result ≠ .error .runtimeError) := by
  have hpow : ∀ (n : Nat), ((List.range n).map fun i => 2 ^ (0 + i)) =
      ((List.range n).map fun i => 2 ^ i) := by
    intro n
    apply List.map_congr_left
    intro i _
    rw [Nat.zero_add]
  refine ⟨?_, ?_, ?_, ?_, ?_, ?_, ?_, ?_⟩
  · intro ttl maxR cache now net url params uc
    rcases clientGet_cases ttl maxR cache now net url params uc with ⟨v, hv⟩ | ⟨_, ha, _⟩
    · rw [hv]; exact Nat.zero_le maxR
    · rw [ha]; exact getRetryLoop_attempts_le net maxR 0 none
  · intro ttl maxR cache now net url params uc
    rcases clientGet_cases ttl maxR cache now net url params uc with ⟨v, hv⟩ | ⟨_, ha, hs⟩
    · rw [hv]; rfl
    · rw [hs, ha, getRetryLoop_sleeps net maxR 0 none, hpow]
  · intro ttl maxR cache now net url params hmiss hpos hall
    have hall0 : ∀ i, i < maxR → retryable (net (0 + i)) = true := by
      intro i hi
      rw [Nat.zero_add]
      exact hall i hi
    have hex := getRetryLoop_exhaust net maxR 0 none hpos hall0
    rw [Nat.zero_add] at hex
    rw [clientGet_miss ttl maxR cache now net url params hmiss]
    exact hex
  · intro ttl maxR cache now net url params uc hpos
    rcases clientGet_cases ttl maxR cache now net url params uc with ⟨v, hv⟩ | ⟨hr, _, _⟩
    · rw [hv]; simp
    · rw [hr]
      exact getRetryLoop_no_generic net maxR 0 none (Or.inl hpos)
  · intro maxR net
    exact postRetryLoop_attempts_le net maxR 0 none
  · intro maxR net
    rw [clientPost, postRetryLoop_sleeps net maxR 0 none, hpow]
  · intro maxR net hpos hall
    have hall0 : ∀ i, i < maxR → retryable (net (0 + i)) = true := by
      intro i hi
      rw [Nat.zero_add]
      exact hall i hi
    have hex := postRetryLoop_exhaust net maxR 0 none hpos hall0
    rw [Nat.zero_add] at hex
    exact hex
  · intro maxR net hpos
    exact postRetryLoop_no_generic net maxR 0 none (Or.inl hpos)

/-- Witness for claim C8: a POST whose two allowed attempts both hit connection errors
surfaces the last connection error after exactly two attempts. -/
theorem retryBackoff_spec_witness :
    (clientPost 2 (fun _ => (NetOutcome.connectError : NetOutcome Nat))).result =
        .error .connectError ∧
      (clientPost 2 (fun _ => (NetOutcome.connectError : NetOutcome Nat))).attempts = 2 :=
  (retryBackoff_spec (β := Nat)).2.2.2.2.2.2.1 2 (fun _ => .connectError) (by omega)
    (fun _ _ => rfl)

/-- Counterexample for claim C9: with a JSON `null` response body the claim fails.  The
first GET succeeds (in one network attempt) and stores `null` under the key;
a second GET for the same url and params only 1 second later — far inside the
120-second TTL — nevertheless issues a network attempt (`attempts = 1`, not
0), so the two calls issue two network requests, not exactly one. -/
theorem cacheIdempotent_counterexample :
    (clientGet 120 3 ([] : Cache Nat) 0 (fun _ => .response 200 none) "u".toList
        none true).result = .ok none ∧
    (clientGet 120 3 ([] : Cache Nat) 0 (fun _ => .response 200 none) "u".toList
        none true).attempts = 1 ∧
    (clientGet 120 3
        (clientGet 120 3 ([] : Cache Nat) 0 (fun _ => .response 200 none) "u".toList
          none true).cache
        1 (fun _ => .response 200 none) "u".toList none true).attempts = 1 :=
  ⟨rfl, rfl, rfl⟩

/-- Claim C9 as amended: calling GET twice with `use_cache = true`, the same url and
params equal as key-value sets (in any ordering — the cache key is the hash
of the url concatenated with the params sorted by key, so permuted params
produce the same key) within `cache_ttl_seconds` of the first successful
response issues exactly one network request, provided the first response
body is not JSON null: the second call returns the cached value of the first
without entering the retry loop. -/
theorem cacheIdempotent_spec {β : Type} (ttl maxR : Nat) (cache : Cache β)
    (now now2 : Nat) (net net2 : Nat → NetOutcome β) (url : List Char)
    (p1 p2 : Option Params) (hperm : paramsPerm p1 p2) (hmax : 0 < maxR)
    (hmiss : getCached ttl now cache (cacheKey url p1) = none)
    (s : Nat) (v : β) (hnet : net 0 = .response s (some v))
    (hs : 200 ≤ s ∧ s < 300) (httl : (now2 : Int) - now < ttl) :
    cacheKey url p1 = cacheKey url p2 ∧
    (clientGet ttl maxR cache now net url p1 true).result = .ok (some v) ∧
    (clientGet ttl maxR cache now net url p1 true).attempts = 1 ∧
    clientGet ttl maxR (clientGet ttl maxR cache now net url p1 true).cache now2 net2
        url p2 true =
      ⟨.ok (some v), 0, [], (clientGet ttl maxR cache now net url p1 true).cache⟩ := by
  have hkey : cacheKey url p1 = cacheKey url p2 := cacheKey_congr url p1 p2 hperm
  obtain ⟨m, rfl⟩ : ∃ m, maxR = m + 1 := ⟨maxR - 1, by omega⟩
  have hloop : getRetryLoop net 0 (m + 1) none = ⟨.ok (some v), 1, [], some (some v)⟩ := by
    rw [getRetryLoop_succ, hnet]
    simp only [if_pos hs]
  have h1 : clientGet ttl (m + 1) cache now net url p1 true =
      ⟨.ok (some v), 1, [], setEntry cache (cacheKey url p1) (some v, now)⟩ := by
    rw [clientGet_miss ttl (m + 1) cache now net url p1 hmiss, hloop]
  have hlook : lookupEntry (setEntry cache (cacheKey url p1) (some v, now))
      (cacheKey url p2) = some (some v, now) := by
    rw [← hkey]
    exact lookupEntry_setEntry cache (cacheKey url p1) (some v, now)
  have hhit : getCached ttl now2 (setEntry cache (cacheKey url p1) (some v, now))
      (cacheKey url p2) = some v :=
    getCached_valid ttl now2 _ _ (some v) now hlook httl
  refine ⟨hkey, ?_, ?_, ?_⟩
  · rw [h1]
  · rw [h1]
  · rw [h1]
    exact clientGet_hit ttl (m + 1) _ now2 net2 url p2 v hhit

/-- Witness for the amended claim C9: a concrete pair of GETs with permuted params where
the second call is served from the cache with zero attempts. -/
theorem cacheIdempotent_spec_witness :
    clientGet 120 3
        (clientGet 120 3 ([] : Cache Nat) 0 (fun _ => .response 200 (some 5)) "u".toList
          (some [("b".toList, "2".toList), ("a".toList, "1".toList)]) true).cache
        1 (fun _ => .connectError) "u".toList
        (some [("a".toList, "1".toList), ("b".toList, "2".toList)]) true =
      ⟨.ok (some 5), 0, [],
        (clientGet 120 3 ([] : Cache Nat) 0 (fun _ => .response 200 (some 5)) "u".toList
          (some [("b".toList, "2".toList), ("a".toList, "1".toList)]) true).cache⟩ :=
  (cacheIdempotent_spec 120 3 [] 0 1 (fun _ => .response 200 (some 5))
    (fun _ => .connectError) "u".toList
    (some [("b".toList, "2".toList), ("a".toList, "1".toList)])
    (some [("a".toList, "1".toList), ("b".toList, "2".toList)])
    (List.Perm.swap ("a".toList, "1".toList) ("b".toList, "2".toList) [])
    (by omega) rfl 200 5 rfl (by omega) (by decide)).2.2.2

/-- Claim C10: a cached JSON `null` is indistinguishable from a cache miss at the
GET interface: `_get_cached` returns the same `None` sentinel for a missing
or expired entry and for a valid entry whose stored value is null, and a GET
against a valid null entry re-enters the network request path (at least one
attempt) even though the TTL has not elapsed. -/
theorem nullCache_indistinguishable {β : Type} :
    (∀ (ttl now : Nat) (cache : Cache β) (k : List Char) (t : Nat),
      lookupEntry cache k = some (none, t) → getCached ttl now cache k = none) ∧
    (∀ (ttl now : Nat) (cache : Cache β) (k : List Char),
      lookupEntry cache k = none → getCached ttl now cache k = none) ∧
    (∀ (ttl maxR : Nat) (cache : Cache β) (now : Nat) (net : Nat → NetOutcome β)
        (url : List Char) (params : Option Params) (t : Nat), 0 < maxR →
      lookupEntry cache (cacheKey url params) = some (none, t) →
      (now : Int) - t < ttl →
      1 ≤ (clientGet ttl maxR cache now net url params true).attempts) := by
  refine ⟨getCached_of_null, getCached_of_missing, ?_⟩
  intro ttl maxR cache now net url params t hpos hlook httl
  have hmiss : getCached ttl now cache (cacheKey url params) = none :=
    getCached_of_null ttl now cache _ t hlook
  rw [clientGet_miss ttl maxR cache now net url params hmiss]
  exact getRetryLoop_attempts_pos net 0 maxR none hpos

/-- Witness for claim C10: a concrete valid null entry forces a network attempt. -/
theorem nullCache_indistinguishable_witness :
    1 ≤ (clientGet 120 3 [(cacheKey "u".toList none, (none : Option Nat), 0)] 5
        (fun _ => .response 200 none) "u".toList none true).attempts :=
  (nullCache_indistinguishable (β := Nat)).2.2 120 3
    [(cacheKey "u".toList none, none, 0)] 5 (fun _ => .response 200 none) "u".toList none 0
    (by omega) rfl (by decide)
